import Mathlib

/-!
Verification development for the OFAC SDN search service (`main.py`).

Text is modelled as lists of code points (`List Nat`).  The character
classes are the ones the source uses: `string.punctuation` (the 32 ASCII
punctuation characters), the ASCII whitespace recognised by `str.strip`
and the regex class `\s`, the ASCII word characters of the regex class
`\w`, and the ASCII case mapping of `str.lower`.  Strings are embedded
via `pstr`, which maps a Lean string to its code points.

`normalize_name` follows the source exactly: translate every punctuation
character to a space, strip, lower-case, then collapse whitespace runs
(`re.sub(r"\s+", " ", ...)`).  The whole-word matcher embeds the regex
`\b` + `re.escape(term)` + `\b` used by `search_sdn`: a match at
position `i` requires the literal query characters at `i` (escaping
makes the query literal text) and a word boundary — the word-character
status flips — at both ends.  Raw entries mirror the fields `search_sdn`
reads from the XML tree; an `Option (List Nat)` field is `none` when the
element is absent or has no text, matching the `elem is not None and
elem.text` truthiness tests.
-/

/-- The 32 characters of Python's `string.punctuation`. -/
def isPunct (c : Nat) : Bool :=
  (33 ≤ c && c ≤ 47) || (58 ≤ c && c ≤ 64) || (91 ≤ c && c ≤ 96) || (123 ≤ c && c ≤ 126)

/-- ASCII whitespace: the characters matched by `\s` and stripped by `str.strip`. -/
def isSpace (c : Nat) : Bool :=
  c == 32 || c == 9 || c == 10 || c == 13 || c == 11 || c == 12

/-- ASCII word characters, the regex class `\w`: digits, letters, underscore. -/
def isWordChar (c : Nat) : Bool :=
  (48 ≤ c && c ≤ 57) || (65 ≤ c && c ≤ 90) || (97 ≤ c && c ≤ 122) || c == 95

/-- ASCII case folding of `str.lower`. -/
def pyToLower (c : Nat) : Nat := if 65 ≤ c && c ≤ 90 then c + 32 else c

/-- The translation table of `normalize_name`: punctuation becomes a space. -/
def translateChar (c : Nat) : Nat := if isPunct c then 32 else c

/-- Remove trailing whitespace (the right half of `str.strip`). -/
def stripTrail : List Nat → List Nat
  | [] => []
  | c :: rest =>
    match stripTrail rest with
    | [] => if isSpace c then [] else [c]
    | r => c :: r

/-- `str.strip`: drop leading and trailing whitespace. -/
def stripWs (l : List Nat) : List Nat := stripTrail (l.dropWhile isSpace)

/-- State machine for `re.sub(r"\s+", " ", ·)`: replace each maximal
whitespace run with one space.  The flag records whether the previous
character was part of a run already replaced. -/
def collapseAux : Bool → List Nat → List Nat
  | _, [] => []
  | prevSpace, c :: rest =>
    if isSpace c then
      if prevSpace then collapseAux true rest else 32 :: collapseAux true rest
    else c :: collapseAux false rest

/-- `re.sub(r"\s+", " ", ·)` applied to a whole string. -/
def collapseWs (l : List Nat) : List Nat := collapseAux false l

/-- `normalize_name` from `main.py`: empty/absent input gives `""`,
otherwise translate punctuation to spaces, strip, lower, collapse. -/
def normalize_name (text : List Nat) : List Nat :=
  if text = [] then []
  else collapseWs (List.map pyToLower (stripWs (List.map translateChar text)))

/-- Code points of a Lean string literal (used only to write concrete inputs). -/
def pstr (s : String) : List Nat := s.toList.map Char.toNat

/-! ## The whole-word matcher

`search_sdn` compiles `r"\b" + re.escape(term_norm) + r"\b"` and calls
`.search` on each normalized candidate.  `re.escape` makes the query
literal text, so a match at position `i` is: the candidate carries
exactly the query's characters starting at `i`, and the regex assertion
`\b` holds at positions `i` and `i + len(query)`.  `\b` holds at a
position iff the word-character status of the character before differs
from that of the character at the position, where both ends of the
string count as non-word. -/

/-- Character of `s` at index `i`; out of range counts as a non-word,
non-space placeholder (code point 0), exactly how the regex engine
treats the ends of the subject string for `\b`. -/
def charAt (s : List Nat) (i : Nat) : Nat := s.getD i 0

/-- Is the character at position `i` a word character (`false` past the end)? -/
def wordAt (s : List Nat) (i : Nat) : Bool := isWordChar (charAt s i)

/-- Is the character just before position `i` a word character (`false` at 0)? -/
def wordBefore (s : List Nat) (i : Nat) : Bool :=
  if i = 0 then false else wordAt s (i - 1)

/-- The regex assertion `\b` at position `i` of `s`. -/
def boundaryAt (s : List Nat) (i : Nat) : Bool := wordBefore s i != wordAt s i

/-- The compiled pattern matches at position `i`. -/
def matchAt (q s : List Nat) (i : Nat) : Bool :=
  ((s.drop i).take q.length == q) && boundaryAt s i && boundaryAt s (i + q.length)

/-- `pattern.search(candidate)` is truthy: the pattern matches at some
position of the candidate. -/
def isWholeWordMatch (q s : List Nat) : Bool :=
  (List.range (s.length + 1)).any (matchAt q s)

/-! ## Raw entries and field extraction

A `RawEntry` mirrors the fields `search_sdn` reads from one `sdnEntry`
element.  Each optional text field is `none` when the element is absent
or its text is `None`/empty — the source always tests
`elem is not None and elem.text`, so the two cases behave identically;
`some t` is an element whose text is `t` (possibly whitespace-only,
which is truthy in Python, hence kept distinct from `none` when `t` is
non-empty). -/

structure RawAka where
  firstName : Option (List Nat)
  lastName : Option (List Nat)
deriving DecidableEq

structure RawAddress where
  address1 : Option (List Nat)
  address2 : Option (List Nat)
  city : Option (List Nat)
  stateOrProvince : Option (List Nat)
  postalCode : Option (List Nat)
  country : Option (List Nat)
deriving DecidableEq

structure RawEntry where
  firstName : Option (List Nat)
  lastName : Option (List Nat)
  akaList : Option (List RawAka)
  addressList : Option (List RawAddress)
  programList : Option (List (Option (List Nat)))
  sdnType : Option (List Nat)
deriving DecidableEq

/-- The truthiness test `elem is not None and elem.text`. -/
def hasText (o : Option (List Nat)) : Bool :=
  match o with
  | some t => !t.isEmpty
  | none => false

/-- `elem.text.strip() if elem is not None and elem.text else ""`. -/
def fieldText (o : Option (List Nat)) : List Nat :=
  match o with
  | some t => if !t.isEmpty then stripWs t else []
  | none => []

/-- `get_official_name` from `main.py`. -/
def get_official_name (entry : RawEntry) : List Nat :=
  let last_name := fieldText entry.lastName
  let first_name := fieldText entry.firstName
  if first_name ≠ [] then stripWs (first_name ++ [32] ++ last_name) else last_name

/-- The aka-name accumulation inside `collect_name_variants`: append the
stripped first name plus a space if it has text, then the stripped last
name if it has text, then strip the result. -/
def akaName (a : RawAka) : List Nat :=
  stripWs ((if hasText a.firstName then stripWs (a.firstName.getD []) ++ [32] else [])
    ++ (if hasText a.lastName then stripWs (a.lastName.getD []) else []))

/-- The alias names appended by `collect_name_variants`: each aka's name,
in source order, non-empty ones only. -/
def aliasNames (entry : RawEntry) : List (List Nat) :=
  match entry.akaList with
  | none => []
  | some akas => (akas.map akaName).filter (fun v => !v.isEmpty)

/-- `collect_name_variants` from `main.py`: the official name when
non-empty, followed by the non-empty aka names in source order. -/
def collect_name_variants (entry : RawEntry) : List (List Nat) :=
  (if get_official_name entry ≠ [] then [get_official_name entry] else []) ++ aliasNames entry

/-- The six optional sub-fields of one address, in the source's order. -/
def addrFieldList (a : RawAddress) : List (Option (List Nat)) :=
  [a.address1, a.address2, a.city, a.stateOrProvince, a.postalCode, a.country]

/-- The `parts` list built for one address sub-entry: stripped text of
each present-and-truthy field. -/
def addrParts (a : RawAddress) : List (List Nat) :=
  ((addrFieldList a).filter hasText).map (fun o => stripWs (o.getD []))

/-- `extract_address` from `main.py`: join each non-empty parts list with
`"; "`, skip sub-entries with empty parts, join the rest with `" | "`. -/
def extract_address (entry : RawEntry) : List Nat :=
  match entry.addressList with
  | none => []
  | some addrs =>
    List.intercalate (pstr " | ")
      (((addrs.map addrParts).filter (fun p => !p.isEmpty)).map (List.intercalate (pstr "; ")))

/-- `extract_programs` from `main.py`. -/
def extract_programs (entry : RawEntry) : List Nat :=
  match entry.programList with
  | none => []
  | some progs =>
    List.intercalate (pstr "; ") ((progs.filter hasText).map (fun o => stripWs (o.getD [])))

/-- `extract_type` from `main.py`. -/
def extract_type (entry : RawEntry) : List Nat := fieldText entry.sdnType

/-! ## The search engine -/

/-- The result dictionary shape `{"Name", "Address", "Type",
"Program(s)", "List", "Score"}`. -/
structure ResultRecord where
  name : List Nat
  address : List Nat
  sdnType : List Nat
  programs : List Nat
  listName : List Nat
  score : List Nat
deriving DecidableEq

/-- The `row` dictionary `search_sdn` builds for a matching entry. -/
def rowOf (entry : RawEntry) : ResultRecord :=
  { name := get_official_name entry
    address := extract_address entry
    sdnType := extract_type entry
    programs := extract_programs entry
    listName := pstr "SDN"
    score := pstr "100" }

/-- One iteration of the entry loop in `search_sdn`: if any normalized
variant matches the pattern, build the row and append it when the
official name is truthy and the row is not already present. -/
def searchStep (term_norm : List Nat) (results : List ResultRecord) (entry : RawEntry) :
    List ResultRecord :=
  let variants := collect_name_variants entry
  if variants.any (fun v => isWholeWordMatch term_norm (normalize_name v)) then
    let official := get_official_name entry
    let row := rowOf entry
    if official ≠ [] ∧ row ∉ results then results ++ [row] else results
  else results

/-- The entry loop of `search_sdn` over already-parsed entries: the query
is normalized once, then each entry is tested in document order. -/
def searchEntries (entries : List RawEntry) (name_search : List Nat) : List ResultRecord :=
  entries.foldl (searchStep (normalize_name name_search)) []

/-- `search_sdn` from `main.py`.  XML decoding is an external
collaborator, abstracted as `parseXML`; `ET.fromstring` raising — on
`None` input or malformed bytes — is the `none` case, which the
source's `except` clause turns into `[]`. -/
def search_sdn (parseXML : List Nat → Option (List RawEntry)) (xml_data : Option (List Nat))
    (name_search : List Nat) : List ResultRecord :=
  match xml_data with
  | none => []
  | some bs =>
    match parseXML bs with
    | none => []
    | some entries => searchEntries entries name_search

/-- `reload_database` from `main.py`, as a state transition on the global
`ofac_xml_data`: the first argument is the outcome of
`fetch_ofac_data` (`none` on any retrieval failure), the state is the
stored bytes; the returned flag is `true` on the success response and
`false` on the HTTP 500 error response. -/
def reload_database (fetch_result : Option (List Nat)) (ofac_xml_data : Option (List Nat)) :
    Option (List Nat) × Bool :=
  match fetch_result with
  | none => (ofac_xml_data, false)
  | some new_data => (some new_data, true)

/-! ## Facts about the character classes -/

theorem pyToLower_spec (c : Nat) : pyToLower c = if 65 ≤ c ∧ c ≤ 90 then c + 32 else c := by
  simp [pyToLower]

theorem isSpace_spec (c : Nat) :
    isSpace c = true ↔ (c = 32 ∨ c = 9 ∨ c = 10 ∨ c = 13 ∨ c = 11 ∨ c = 12) := by
  simp [isSpace]
  tauto

theorem isPunct_spec (c : Nat) :
    isPunct c = true ↔
      ((33 ≤ c ∧ c ≤ 47) ∨ (58 ≤ c ∧ c ≤ 64) ∨ (91 ≤ c ∧ c ≤ 96) ∨ (123 ≤ c ∧ c ≤ 126)) := by
  simp [isPunct]
  tauto

theorem pyToLower_idem (c : Nat) : pyToLower (pyToLower c) = pyToLower c := by
  by_cases h : 65 ≤ c ∧ c ≤ 90
  · rw [pyToLower_spec c, if_pos h, pyToLower_spec, if_neg (by omega)]
  · rw [pyToLower_spec c, if_neg h, pyToLower_spec, if_neg h]

theorem isSpace_pyToLower (c : Nat) : isSpace (pyToLower c) = isSpace c := by
  rw [Bool.eq_iff_iff, isSpace_spec, isSpace_spec, pyToLower_spec]
  by_cases h : 65 ≤ c ∧ c ≤ 90
  · rw [if_pos h]; omega
  · rw [if_neg h]

theorem isPunct_pyToLower (c : Nat) (h : isPunct c = false) : isPunct (pyToLower c) = false := by
  rw [← Bool.not_eq_true, isPunct_spec, pyToLower_spec]
  rw [← Bool.not_eq_true, isPunct_spec] at h
  by_cases hc : 65 ≤ c ∧ c ≤ 90
  · rw [if_pos hc]; omega
  · rw [if_neg hc]; exact h

theorem isPunct_translateChar (c : Nat) : isPunct (translateChar c) = false := by
  simp only [translateChar]
  split
  · decide
  · next h => exact Bool.eq_false_iff.mpr h

theorem translateChar_eq_self (c : Nat) (h : isPunct c = false) : translateChar c = c := by
  simp [translateChar, h]

/-! ## Facts about stripping -/

theorem stripTrail_cons (c : Nat) (rest : List Nat) :
    stripTrail (c :: rest) =
      match stripTrail rest with
      | [] => if isSpace c then [] else [c]
      | r => c :: r := rfl

theorem stripTrail_cons_of_eq_nil (c : Nat) {rest : List Nat} (h : stripTrail rest = []) :
    stripTrail (c :: rest) = if isSpace c then [] else [c] := by
  rw [stripTrail_cons, h]

theorem stripTrail_cons_of_ne_nil (c : Nat) {rest : List Nat} (h : stripTrail rest ≠ []) :
    stripTrail (c :: rest) = c :: stripTrail rest := by
  rw [stripTrail_cons]
  rcases hr : stripTrail rest with _ | ⟨r0, rs⟩
  · exact absurd hr h
  · rfl

theorem mem_stripTrail {c : Nat} {l : List Nat} (h : c ∈ stripTrail l) : c ∈ l := by
  induction l with
  | nil => simp [stripTrail] at h
  | cons d rest ih =>
    by_cases hr : stripTrail rest = []
    · rw [stripTrail_cons_of_eq_nil d hr] at h
      split at h
      · simp at h
      · simp at h
        simp [h]
    · rw [stripTrail_cons_of_ne_nil d hr] at h
      rcases List.mem_cons.mp h with h1 | h2
      · simp [h1]
      · exact List.mem_cons_of_mem d (ih h2)

theorem stripTrail_nil_of_all_space {l : List Nat} (h : ∀ c ∈ l, isSpace c = true) :
    stripTrail l = [] := by
  induction l with
  | nil => rfl
  | cons d rest ih =>
    rw [stripTrail_cons_of_eq_nil d (ih fun c hc => h c (List.mem_cons_of_mem d hc))]
    rw [if_pos (h d (List.mem_cons_self d rest))]

theorem stripTrail_idem (l : List Nat) : stripTrail (stripTrail l) = stripTrail l := by
  induction l with
  | nil => rfl
  | cons d rest ih =>
    by_cases hr : stripTrail rest = []
    · rw [stripTrail_cons_of_eq_nil d hr]
      split
      · rfl
      · next hd => rw [stripTrail_cons_of_eq_nil d (show stripTrail [] = [] from rfl), if_neg (by simp [hd])]
    · rw [stripTrail_cons_of_ne_nil d hr, stripTrail_cons_of_ne_nil d (by rw [ih]; exact hr), ih]

theorem stripTrail_append_of_ne_nil (x : List Nat) {y : List Nat} (h : stripTrail y ≠ []) :
    stripTrail (x ++ y) = x ++ stripTrail y := by
  induction x with
  | nil => rfl
  | cons c x' ih =>
    have hne : stripTrail (x' ++ y) ≠ [] := by
      rw [ih]
      intro hc
      exact h (List.append_eq_nil.mp hc).2
    rw [List.cons_append, stripTrail_cons_of_ne_nil c hne, ih, List.cons_append]

theorem stripTrail_append_of_eq_nil {y : List Nat} (x : List Nat) (h : stripTrail y = []) :
    stripTrail (x ++ y) = stripTrail x := by
  induction x with
  | nil => simp at h ⊢; exact h
  | cons c x' ih =>
    rw [List.cons_append]
    by_cases hx : stripTrail x' = []
    · rw [stripTrail_cons_of_eq_nil c (by rw [ih, hx]), stripTrail_cons_of_eq_nil c hx]
    · rw [stripTrail_cons_of_ne_nil c (by rw [ih]; exact hx), stripTrail_cons_of_ne_nil c hx, ih]

/-- Decomposition of the fixpoint equation on a cons cell. -/
theorem stripTrail_fix_decomp {c : Nat} {rest : List Nat} (h : stripTrail (c :: rest) = c :: rest) :
    (rest = [] ∧ isSpace c = false) ∨ (rest ≠ [] ∧ stripTrail rest = rest) := by
  by_cases hr : stripTrail rest = []
  · left
    rw [stripTrail_cons_of_eq_nil c hr] at h
    split at h
    · exact absurd h (by simp)
    · next hd =>
      have : rest = [] := by
        have := congrArg List.length h
        simpa using this.symm
      exact ⟨this, Bool.eq_false_iff.mpr hd⟩
  · right
    rw [stripTrail_cons_of_ne_nil c hr] at h
    have h2 : stripTrail rest = rest := by
      have := List.cons.injEq c (stripTrail rest) c rest ▸ h
      exact (List.cons.inj h).2
    refine ⟨fun hc => hr (by rw [hc] at h2 ⊢; exact h2), h2⟩

theorem dropWhile_dropWhile (p : Nat → Bool) (l : List Nat) :
    (l.dropWhile p).dropWhile p = l.dropWhile p := by
  induction l with
  | nil => rfl
  | cons c rest ih =>
    by_cases h : p c = true
    · simp [List.dropWhile_cons, h, ih]
    · simp [List.dropWhile_cons, h]

theorem dropWhile_fix_head {p : Nat → Bool} {c : Nat} {rest : List Nat}
    (h : (c :: rest).dropWhile p = c :: rest) : p c = false := by
  by_cases hc : p c = true
  · exfalso
    rw [List.dropWhile_cons_of_pos hc] at h
    have hlen := congrArg List.length h
    have hle := (List.dropWhile_sublist (l := rest) p).length_le
    simp at hlen
    omega
  · exact Bool.eq_false_iff.mpr hc

theorem dropWhile_fix_stripTrail {l : List Nat} (h : l.dropWhile isSpace = l) :
    (stripTrail l).dropWhile isSpace = stripTrail l := by
  cases l with
  | nil => rfl
  | cons c rest =>
    have hc := dropWhile_fix_head h
    by_cases hr : stripTrail rest = []
    · rw [stripTrail_cons_of_eq_nil c hr, if_neg (by simp [hc])]
      simp [List.dropWhile_cons, hc]
    · rw [stripTrail_cons_of_ne_nil c hr]
      simp [List.dropWhile_cons, hc]

theorem stripTrail_map_of_fix {f : Nat → Nat} (hf : ∀ c, isSpace (f c) = isSpace c)
    {l : List Nat} (h : stripTrail l = l) : stripTrail (l.map f) = l.map f := by
  induction l with
  | nil => rfl
  | cons c rest ih =>
    rcases stripTrail_fix_decomp h with ⟨h1, h2⟩ | ⟨h1, h2⟩
    · subst h1
      rw [List.map_cons, List.map_nil,
        stripTrail_cons_of_eq_nil (f c) (show stripTrail [] = [] from rfl),
        if_neg (by rw [hf c, h2]; simp)]
    · have hm : stripTrail (List.map f rest) = List.map f rest := ih h2
      have hmne : List.map f rest ≠ [] := by
        simpa using h1
      rw [List.map_cons, stripTrail_cons_of_ne_nil (f c) (by rw [hm]; exact hmne), hm]

theorem dropWhile_map_of_fix {f : Nat → Nat} (hf : ∀ c, isSpace (f c) = isSpace c)
    {l : List Nat} (h : l.dropWhile isSpace = l) :
    (l.map f).dropWhile isSpace = l.map f := by
  cases l with
  | nil => rfl
  | cons c rest =>
    have hc := dropWhile_fix_head h
    rw [List.map_cons]
    simp [List.dropWhile_cons, hf c, hc]

theorem dropWhile_stripWs (l : List Nat) : (stripWs l).dropWhile isSpace = stripWs l :=
  dropWhile_fix_stripTrail (dropWhile_dropWhile isSpace l)

theorem stripTrail_stripWs (l : List Nat) : stripTrail (stripWs l) = stripWs l :=
  stripTrail_idem (l.dropWhile isSpace)

theorem stripWs_of_fix {l : List Nat} (h1 : l.dropWhile isSpace = l) (h2 : stripTrail l = l) :
    stripWs l = l := by
  rw [stripWs, h1, h2]

theorem stripWs_stripWs (l : List Nat) : stripWs (stripWs l) = stripWs l :=
  stripWs_of_fix (dropWhile_stripWs l) (stripTrail_stripWs l)

/-! ## Facts about whitespace collapsing -/

/-- Head of the list is not a whitespace character (vacuously true for `[]`). -/
def headNonSpace : List Nat → Bool
  | [] => true
  | c :: _ => !isSpace c

/-- No two adjacent whitespace characters. -/
def noAdjSpace : List Nat → Bool
  | [] => true
  | [_] => true
  | c1 :: c2 :: rest => !(isSpace c1 && isSpace c2) && noAdjSpace (c2 :: rest)

theorem noAdjSpace_cons_of_head {c : Nat} {l : List Nat} (hc : isSpace c = false)
    (hl : noAdjSpace l = true) : noAdjSpace (c :: l) = true := by
  cases l with
  | nil => rfl
  | cons c2 rest => simp [noAdjSpace, hc, hl]

theorem noAdjSpace_cons_of_next {c : Nat} {l : List Nat} (hl : noAdjSpace l = true)
    (hh : headNonSpace l = true) : noAdjSpace (c :: l) = true := by
  cases l with
  | nil => rfl
  | cons c2 rest =>
    simp only [headNonSpace, Bool.not_eq_true'] at hh
    simp [noAdjSpace, hh, hl]

theorem noAdjSpace_tail {c : Nat} {l : List Nat} (h : noAdjSpace (c :: l) = true) :
    noAdjSpace l = true := by
  cases l with
  | nil => rfl
  | cons c2 rest =>
    simp only [noAdjSpace, Bool.and_eq_true] at h
    exact h.2

theorem mem_collapseAux {c : Nat} {b : Bool} {l : List Nat} (h : c ∈ collapseAux b l) :
    c = 32 ∨ (c ∈ l ∧ isSpace c = false) := by
  induction l generalizing b with
  | nil => simp [collapseAux] at h
  | cons d rest ih =>
    rw [collapseAux] at h
    split at h
    · next hd =>
      split at h
      · rcases ih h with h1 | ⟨h2, h3⟩
        · exact Or.inl h1
        · exact Or.inr ⟨List.mem_cons_of_mem d h2, h3⟩
      · rcases List.mem_cons.mp h with h1 | h1
        · exact Or.inl h1
        · rcases ih h1 with h2 | ⟨h2, h3⟩
          · exact Or.inl h2
          · exact Or.inr ⟨List.mem_cons_of_mem d h2, h3⟩
    · next hd =>
      rcases List.mem_cons.mp h with h1 | h1
      · subst h1
        exact Or.inr ⟨List.mem_cons_self c rest, Bool.eq_false_iff.mpr hd⟩
      · rcases ih h1 with h2 | ⟨h2, h3⟩
        · exact Or.inl h2
        · exact Or.inr ⟨List.mem_cons_of_mem d h2, h3⟩

theorem headNonSpace_collapseAux_true (l : List Nat) :
    headNonSpace (collapseAux true l) = true := by
  induction l with
  | nil => rfl
  | cons c rest ih =>
    rw [collapseAux]
    split
    · next hc => simpa using ih
    · next hc => simp [headNonSpace, hc]

theorem noAdjSpace_collapseAux (b : Bool) (l : List Nat) :
    noAdjSpace (collapseAux b l) = true := by
  induction l generalizing b with
  | nil => rfl
  | cons c rest ih =>
    rw [collapseAux]
    split
    · next hc =>
      split
      · exact ih true
      · exact noAdjSpace_cons_of_next (ih true) (headNonSpace_collapseAux_true rest)
    · next hc => exact noAdjSpace_cons_of_head (Bool.eq_false_iff.mpr hc) (ih false)

theorem collapseAux_false_ne_nil {l : List Nat} (h : l ≠ []) : collapseAux false l ≠ [] := by
  cases l with
  | nil => exact absurd rfl h
  | cons c rest =>
    rw [collapseAux]
    split <;> simp

theorem all_space_of_collapseAux_true_eq_nil {l : List Nat} (h : collapseAux true l = []) :
    ∀ c ∈ l, isSpace c = true := by
  induction l with
  | nil => simp
  | cons c rest ih =>
    rw [collapseAux] at h
    split at h
    · next hc =>
      intro d hd
      rcases List.mem_cons.mp hd with h1 | h1
      · rw [h1]; exact hc
      · exact ih h d h1
    · next hc => simp at h

theorem collapseAux_fix {l : List Nat} (h32 : ∀ c ∈ l, isSpace c = true → c = 32)
    (hadj : noAdjSpace l = true) :
    ∀ b : Bool, (b = true → headNonSpace l = true) → collapseAux b l = l := by
  induction l with
  | nil => intro b _; rfl
  | cons c rest ih =>
    intro b hb
    rw [collapseAux]
    split
    · next hc =>
      have hcb : b = false := by
        cases b with
        | false => rfl
        | true =>
          have := hb rfl
          simp [headNonSpace, hc] at this
      subst hcb
      have hc32 : c = 32 := h32 c (List.mem_cons_self c rest) hc
      simp only [Bool.false_eq_true, if_false]
      rw [hc32]
      congr 1
      refine ih (fun d hd hds => h32 d (List.mem_cons_of_mem c hd) hds) (noAdjSpace_tail hadj)
        true (fun _ => ?_)
      cases rest with
      | nil => rfl
      | cons c2 rest2 =>
        simp only [noAdjSpace, Bool.and_eq_true] at hadj
        have h1 : isSpace c = false ∨ isSpace c2 = false := by simpa using hadj.1
        rcases h1 with h1 | h1
        · rw [hc] at h1
          simp at h1
        · simp [headNonSpace, h1]
    · next hc =>
      congr 1
      exact ih (fun d hd hds => h32 d (List.mem_cons_of_mem c hd) hds) (noAdjSpace_tail hadj)
        false (by simp)

theorem stripTrail_collapseAux {l : List Nat} (h : stripTrail l = l) :
    ∀ b : Bool, stripTrail (collapseAux b l) = collapseAux b l := by
  induction l with
  | nil => intro b; rfl
  | cons c rest ih =>
    intro b
    rcases stripTrail_fix_decomp h with ⟨h1, h2⟩ | ⟨h1, h2⟩
    · subst h1
      rw [collapseAux]
      simp only [h2, Bool.false_eq_true, if_false]
      rw [show collapseAux false [] = [] from rfl]
      rw [stripTrail_cons_of_eq_nil c (show stripTrail [] = [] from rfl), if_neg (by simp [h2])]
    · have hrest := ih h2
      have hneT : collapseAux true rest ≠ [] := by
        intro hnil
        have hall : stripTrail rest = [] :=
          stripTrail_nil_of_all_space (all_space_of_collapseAux_true_eq_nil hnil)
        rw [h2] at hall
        exact h1 hall
      rw [collapseAux]
      split
      · next hc =>
        split
        · exact hrest true
        · rw [stripTrail_cons_of_ne_nil 32 (by rw [hrest true]; exact hneT), hrest true]
      · next hc =>
        have hneF : collapseAux false rest ≠ [] := collapseAux_false_ne_nil h1
        rw [stripTrail_cons_of_ne_nil c (by rw [hrest false]; exact hneF), hrest false]

theorem dropWhile_collapseAux_false {l : List Nat} (h : l.dropWhile isSpace = l) :
    (collapseAux false l).dropWhile isSpace = collapseAux false l := by
  cases l with
  | nil => rfl
  | cons c rest =>
    have hc := dropWhile_fix_head h
    rw [collapseAux, if_neg (by simp [hc])]
    simp [List.dropWhile_cons, hc]

/-! ## Idempotence of the normalizer -/

theorem map_eq_self_of_forall {f : Nat → Nat} {l : List Nat} (h : ∀ c ∈ l, f c = c) :
    l.map f = l := by
  induction l with
  | nil => rfl
  | cons c rest ih =>
    rw [List.map_cons, h c (List.mem_cons_self c rest),
      ih fun d hd => h d (List.mem_cons_of_mem c hd)]

theorem mem_stripWs {c : Nat} {l : List Nat} (h : c ∈ stripWs l) : c ∈ l :=
  (List.dropWhile_sublist isSpace).mem (mem_stripTrail h)

/-- Every character of a normalized string: not punctuation, already
lower-case, and any whitespace is exactly one space character. -/
theorem normalize_name_char_props {c : Nat} {s : List Nat} (h : c ∈ normalize_name s) :
    isPunct c = false ∧ pyToLower c = c ∧ (isSpace c = true → c = 32) := by
  rw [normalize_name] at h
  split at h
  · simp at h
  · rcases mem_collapseAux h with h1 | ⟨h1, h2⟩
    · subst h1
      exact ⟨by decide, by decide, fun _ => rfl⟩
    · rcases List.mem_map.mp h1 with ⟨d, hd, hdc⟩
      subst hdc
      rcases List.mem_map.mp (mem_stripWs hd) with ⟨e, _, hed⟩
      subst hed
      refine ⟨isPunct_pyToLower _ (isPunct_translateChar e), pyToLower_idem _, fun hs => ?_⟩
      rw [h2] at hs
      exact absurd hs (by simp)

theorem normalize_name_strip_fix (s : List Nat) :
    (normalize_name s).dropWhile isSpace = normalize_name s
      ∧ stripTrail (normalize_name s) = normalize_name s := by
  rw [normalize_name]
  split
  · exact ⟨rfl, rfl⟩
  · constructor
    · exact dropWhile_collapseAux_false
        (dropWhile_map_of_fix isSpace_pyToLower (dropWhile_stripWs _))
    · exact stripTrail_collapseAux
        (stripTrail_map_of_fix isSpace_pyToLower (stripTrail_stripWs _)) false

theorem normalize_name_noAdj (s : List Nat) : noAdjSpace (normalize_name s) = true := by
  rw [normalize_name]
  split
  · rfl
  · exact noAdjSpace_collapseAux false _

/-- Claim C3 helper: the normalized form is a fixpoint of the normalizer. -/
theorem normalize_name_fix {n : List Nat}
    (hpunct : ∀ c ∈ n, isPunct c = false)
    (hlower : ∀ c ∈ n, pyToLower c = c)
    (h32 : ∀ c ∈ n, isSpace c = true → c = 32)
    (hdrop : n.dropWhile isSpace = n)
    (htrail : stripTrail n = n)
    (hadj : noAdjSpace n = true) : normalize_name n = n := by
  rw [normalize_name]
  split
  · next h => exact h.symm
  · rw [map_eq_self_of_forall fun c hc => translateChar_eq_self c (hpunct c hc),
      stripWs_of_fix hdrop htrail,
      map_eq_self_of_forall hlower]
    exact collapseAux_fix h32 hadj false (by simp)

/-- C3: for every string `x`, `normalize(normalize(x)) == normalize(x)` — the
normalizer (punctuation replaced by spaces, lower-casing, whitespace collapsed
and trimmed) is idempotent. -/
theorem c3_normalize_idempotent (x : List Nat) :
    normalize_name (normalize_name x) = normalize_name x := by
  refine normalize_name_fix ?_ ?_ ?_ (normalize_name_strip_fix x).1 (normalize_name_strip_fix x).2
    (normalize_name_noAdj x)
  · exact fun c hc => (normalize_name_char_props hc).1
  · exact fun c hc => (normalize_name_char_props hc).2.1
  · exact fun c hc => (normalize_name_char_props hc).2.2

/-! ## The official name -/

theorem fieldText_strip_fix (o : Option (List Nat)) :
    (fieldText o).dropWhile isSpace = fieldText o ∧ stripTrail (fieldText o) = fieldText o := by
  match o with
  | none => exact ⟨rfl, rfl⟩
  | some t =>
    rw [fieldText]
    split
    · exact ⟨dropWhile_stripWs t, stripTrail_stripWs t⟩
    · exact ⟨rfl, rfl⟩

theorem fieldText_of_hasText {o : Option (List Nat)} (h : hasText o = true) :
    fieldText o = stripWs (o.getD []) := by
  match o with
  | none => simp [hasText] at h
  | some t =>
    rw [hasText] at h
    rw [fieldText, if_pos h]
    rfl

theorem fieldText_of_not_hasText {o : Option (List Nat)} (h : hasText o = false) :
    fieldText o = [] := by
  match o with
  | none => rfl
  | some t =>
    rw [hasText] at h
    rw [fieldText, if_neg (by simp [h])]

/-- Stripping a string of the form `f ++ " " ++ l` where `f` is non-empty
and both `f` and `l` are already stripped. -/
theorem stripWs_mid_space {f l : List Nat}
    (hf : f.dropWhile isSpace = f ∧ stripTrail f = f) (hfne : f ≠ [])
    (hl : l.dropWhile isSpace = l ∧ stripTrail l = l) :
    stripWs (f ++ [32] ++ l) = if l ≠ [] then f ++ [32] ++ l else f := by
  rcases f with _ | ⟨c, f'⟩
  · exact absurd rfl hfne
  · have hc : isSpace c = false := dropWhile_fix_head hf.1
    have hdrop : ((c :: f') ++ [32] ++ l).dropWhile isSpace = (c :: f') ++ [32] ++ l := by
      simp [List.cons_append, List.dropWhile_cons, hc]
    rw [stripWs, hdrop]
    by_cases hlne : l ≠ []
    · rw [if_pos hlne]
      have : stripTrail l ≠ [] := by rw [hl.2]; exact hlne
      rw [stripTrail_append_of_ne_nil _ this, hl.2]
    · rw [if_neg hlne]
      push_neg at hlne
      subst hlne
      rw [List.append_nil]
      rw [stripTrail_append_of_eq_nil _ (show stripTrail [32] = [] by decide), hf.2]

/-- C4 (amended): the official name is `first ++ " " ++ last` when both
trimmed parts are non-empty, just `first` when only the first name has
usable text (the source strips the trailing space), and `last` otherwise. -/
theorem c4_official_name_amended (entry : RawEntry) :
    get_official_name entry =
      (if fieldText entry.firstName ≠ [] then
        (if fieldText entry.lastName ≠ [] then
          fieldText entry.firstName ++ [32] ++ fieldText entry.lastName
         else fieldText entry.firstName)
       else fieldText entry.lastName) := by
  rw [get_official_name]
  by_cases hf : fieldText entry.firstName ≠ []
  · rw [if_pos hf, if_pos hf]
    rw [stripWs_mid_space (fieldText_strip_fix _) hf (fieldText_strip_fix _)]
  · rw [if_neg hf, if_neg hf]

def c4entry : RawEntry :=
  { firstName := some (pstr "John")
    lastName := none
    akaList := none
    addressList := none
    programList := none
    sdnType := none }

/-- C4 counterexample: for an entry with `firstName` present and non-empty
but no `lastName`, the code returns `"John"`, while the claimed formula
`trimmed(firstName) ++ " " ++ trimmed(lastName)` yields `"John "` with a
trailing space: the two differ. -/
theorem c4_counterexample :
    hasText c4entry.firstName = true
      ∧ get_official_name c4entry = pstr "John"
      ∧ get_official_name c4entry ≠
          stripWs (c4entry.firstName.getD []) ++ [32] ++ stripWs (c4entry.lastName.getD []) := by
  refine ⟨by decide, by decide, by decide⟩

/-! ## Alias construction -/

theorem fieldText_ite (o : Option (List Nat)) :
    fieldText o = if hasText o = true then stripWs (o.getD []) else [] := by
  cases h : hasText o
  · rw [if_neg (by simp [h]), fieldText_of_not_hasText h]
  · rw [if_pos rfl]
    exact fieldText_of_hasText h

theorem stripWs_fieldText (o : Option (List Nat)) : stripWs (fieldText o) = fieldText o :=
  stripWs_of_fix (fieldText_strip_fix o).1 (fieldText_strip_fix o).2

/-- The aka-name construction agrees with `get_official_name` applied to
the aka's own first/last fields. -/
theorem akaName_eq_official (a : RawAka) :
    akaName a = get_official_name
      { firstName := a.firstName, lastName := a.lastName, akaList := none,
        addressList := none, programList := none, sdnType := none } := by
  rw [akaName, get_official_name]
  show stripWs ((if hasText a.firstName then stripWs (a.firstName.getD []) ++ [32] else [])
      ++ (if hasText a.lastName then stripWs (a.lastName.getD []) else []))
    = if fieldText a.firstName ≠ [] then
        stripWs (fieldText a.firstName ++ [32] ++ fieldText a.lastName)
      else fieldText a.lastName
  have hL : (if hasText a.lastName then stripWs (a.lastName.getD []) else [])
      = fieldText a.lastName := by
    rw [fieldText_ite]
  cases hf : hasText a.firstName
  · have hfe : fieldText a.firstName = [] := fieldText_of_not_hasText hf
    rw [if_neg (by simp), hL, List.nil_append, stripWs_fieldText, if_neg (by simp [hfe])]
  · have hfe : fieldText a.firstName = stripWs (a.firstName.getD []) := fieldText_of_hasText hf
    rw [if_pos rfl, hL, ← hfe]
    by_cases hne : fieldText a.firstName = []
    · rw [hne, List.nil_append, if_neg (by simp [hne])]
      have hfix := fieldText_strip_fix a.lastName
      rw [stripWs, List.singleton_append,
        List.dropWhile_cons_of_pos (by decide : isSpace 32 = true), hfix.1, hfix.2]
    · rw [if_pos hne]

/-- C6: aliases are built the same way as the official name from each
alias sub-entry's own first/last fields; aliases with no usable text are
skipped (never emitted as empty strings); and the sequence preserves the
source order of the entry's alias list, with no sorting and no
deduplication (it is exactly the order-preserving filter of the mapped
alias list). -/
theorem c6_alias_construction (entry : RawEntry) (a : RawAka) :
    (akaName a = get_official_name
      { firstName := a.firstName, lastName := a.lastName, akaList := none,
        addressList := none, programList := none, sdnType := none })
    ∧ aliasNames entry = ((entry.akaList.getD []).map akaName).filter (fun v => !v.isEmpty)
    ∧ (aliasNames entry).all (fun v => !v.isEmpty) = true
    ∧ collect_name_variants entry =
        (if get_official_name entry ≠ [] then [get_official_name entry] else [])
          ++ aliasNames entry := by
  refine ⟨akaName_eq_official a, ?_, ?_, rfl⟩
  · rw [aliasNames]
    match entry.akaList with
    | none => rfl
    | some akas => rfl
  · rw [aliasNames]
    match entry.akaList with
    | none => rfl
    | some akas =>
      exact List.all_eq_true.mpr fun v hv => (List.mem_filter.mp hv).2

/-! ## Addresses -/

/-- The address formula as the claim states it: for each address
sub-entry join its present-and-non-empty fields with `"; "`, and join
the (all) sub-entries with `" | "` — with no provision for sub-entries
that contribute no fields. -/
def addressClaim (entry : RawEntry) : List Nat :=
  match entry.addressList with
  | none => []
  | some addrs =>
    List.intercalate (pstr " | ") (addrs.map (fun a => List.intercalate (pstr "; ") (addrParts a)))

/-- The address formula with the skip the source performs: sub-entries
whose six fields are all absent or empty are dropped before joining. -/
def addressAmended (entry : RawEntry) : List Nat :=
  match entry.addressList with
  | none => []
  | some addrs =>
    List.intercalate (pstr " | ")
      ((addrs.filter (fun a => !(addrParts a).isEmpty)).map
        (fun a => List.intercalate (pstr "; ") (addrParts a)))

/-- C7 (amended): the extracted address joins each sub-entry's
present-and-non-empty fields with `"; "`, skips sub-entries with no such
fields, joins the remaining sub-entries with `" | "`, and is empty when
the address list is absent. -/
theorem c7_address_amended (entry : RawEntry) :
    extract_address entry = addressAmended entry
      ∧ (entry.addressList = none → extract_address entry = []) := by
  constructor
  · cases haddr : entry.addressList with
    | none => rw [extract_address, addressAmended, haddr]
    | some addrs =>
      rw [extract_address, addressAmended, haddr]
      show List.intercalate (pstr " | ")
          ((List.filter (fun p => !p.isEmpty) (List.map addrParts addrs)).map
            (List.intercalate (pstr "; ")))
        = List.intercalate (pstr " | ")
          ((addrs.filter (fun a => !(addrParts a).isEmpty)).map
            (fun a => List.intercalate (pstr "; ") (addrParts a)))
      rw [List.filter_map addrParts addrs, List.map_map]
      rfl
  · intro h
    rw [extract_address, h]

def noneEntry : RawEntry :=
  { firstName := none
    lastName := none
    akaList := none
    addressList := none
    programList := none
    sdnType := none }

def emptyAddress : RawAddress :=
  { address1 := none
    address2 := none
    city := none
    stateOrProvince := none
    postalCode := none
    country := none }

def kabulAddress : RawAddress := { emptyAddress with city := some (pstr "Kabul") }

def c7entry : RawEntry :=
  { noneEntry with
    lastName := some (pstr "X")
    addressList := some [emptyAddress, kabulAddress] }

/-- C7 counterexample: an entry whose address list holds one sub-entry
with no usable fields followed by one with city `"Kabul"`.  The code
yields `"Kabul"`, while the formula of the claim — join every sub-entry
with `" | "` — yields `" | Kabul"`. -/
theorem c7_counterexample :
    extract_address c7entry = pstr "Kabul"
      ∧ addressClaim c7entry = pstr " | Kabul"
      ∧ extract_address c7entry ≠ addressClaim c7entry := by
  refine ⟨by decide, by decide, by decide⟩

/-! ## Whole-word matching, declaratively -/

/-- Is the first character of a list a word character (`false` for `[]`,
i.e. at the edge of the string)? -/
def headWord : List Nat → Bool
  | [] => false
  | c :: _ => isWordChar c

/-- Is the last character of a list a word character (`false` for `[]`)? -/
def lastWord (l : List Nat) : Bool := headWord l.reverse

/-- Declarative whole-word containment: the candidate splits as
`a ++ q ++ b` with a word boundary on both sides of `q` — the
word-character status changes across each cut, where the start and end
of the string count as non-word. -/
def occursWholeWord (q s : List Nat) : Prop :=
  ∃ a b : List Nat, s = a ++ q ++ b
    ∧ lastWord a ≠ headWord (q ++ b)
    ∧ lastWord (a ++ q) ≠ headWord b

theorem headWord_drop (s : List Nat) (i : Nat) : headWord (s.drop i) = wordAt s i := by
  induction s generalizing i with
  | nil =>
    simp [headWord, wordAt, charAt, List.getD]
    decide
  | cons c rest ih =>
    cases i with
    | zero => rfl
    | succ j =>
      rw [List.drop_succ_cons, ih j]
      rfl

theorem lastWord_take (s : List Nat) (i : Nat) (h : i ≤ s.length) :
    lastWord (s.take i) = wordBefore s i := by
  cases i with
  | zero => rfl
  | succ j =>
    have hj : j < s.length := h
    rw [lastWord, List.take_succ]
    rw [List.getElem?_eq_getElem hj]
    simp only [Option.toList_some, List.reverse_append, List.reverse_singleton,
      List.singleton_append]
    rw [wordBefore, if_neg (by omega)]
    simp only [Nat.add_sub_cancel]
    rw [headWord, wordAt, charAt, List.getD_eq_getElem s 0 hj]

theorem matchAt_iff_parts (q s : List Nat) (i : Nat) :
    matchAt q s i = true ↔
      ((s.drop i).take q.length = q
        ∧ wordBefore s i ≠ wordAt s i
        ∧ wordBefore s (i + q.length) ≠ wordAt s (i + q.length)) := by
  rw [matchAt]
  simp only [Bool.and_eq_true, beq_iff_eq, boundaryAt, bne_iff_ne, ne_eq]
  tauto

/-- The regex search over positions coincides with declarative
whole-word containment. -/
theorem isWholeWordMatch_iff_occurs (q s : List Nat) :
    isWholeWordMatch q s = true ↔ occursWholeWord q s := by
  rw [isWholeWordMatch, List.any_eq_true]
  constructor
  · rintro ⟨i, hmem, hmatch⟩
    have hi : i ≤ s.length := by
      have := List.mem_range.mp hmem
      omega
    rcases (matchAt_iff_parts q s i).mp hmatch with ⟨htake, hb1, hb2⟩
    have hlen : i + q.length ≤ s.length := by
      have := congrArg List.length htake
      rw [List.length_take, List.length_drop] at this
      omega
    refine ⟨s.take i, s.drop (i + q.length), ?_, ?_, ?_⟩
    · have h1 : s.drop i = q ++ s.drop (i + q.length) := by
        conv_lhs => rw [← List.take_append_drop q.length (s.drop i)]
        rw [htake, List.drop_drop]
      conv_lhs => rw [← List.take_append_drop i s]
      rw [h1, List.append_assoc]
    · have e1 : lastWord (s.take i) = wordBefore s i := lastWord_take s i hi
      have e2 : headWord (q ++ s.drop (i + q.length)) = wordAt s i := by
        have h1 : s.drop i = q ++ s.drop (i + q.length) := by
          conv_lhs => rw [← List.take_append_drop q.length (s.drop i)]
          rw [htake, List.drop_drop]
        rw [← h1, headWord_drop]
      rw [e1, e2]
      exact hb1
    · have e3 : s.take i ++ q = s.take (i + q.length) := by
        rw [List.take_add s i q.length, htake]
      have e4 : lastWord (s.take i ++ q) = wordBefore s (i + q.length) := by
        rw [e3]
        exact lastWord_take s _ hlen
      rw [e4, headWord_drop]
      exact hb2
  · rintro ⟨a, b, hs, hb1, hb2⟩
    have hlen : s.length = a.length + q.length + b.length := by
      rw [hs]
      simp only [List.length_append]
    refine ⟨a.length, List.mem_range.mpr (by omega), ?_⟩
    have hdrop : s.drop a.length = q ++ b := by
      rw [hs, List.append_assoc, List.drop_left]
    have htake : (s.drop a.length).take q.length = q := by
      rw [hdrop, List.take_left]
    refine (matchAt_iff_parts q s a.length).mpr ⟨htake, ?_, ?_⟩
    · rw [← lastWord_take s a.length (by omega), ← headWord_drop, hdrop]
      rw [hs, List.append_assoc, List.take_left]
      exact hb1
    · have e3 : s.take (a.length + q.length) = a ++ q := by
        rw [hs, ← List.length_append a q, List.take_left]
      rw [← lastWord_take s _ (by omega), e3, ← headWord_drop, hs]
      rw [List.drop_left' (by simp : (a ++ q).length = a.length + q.length)]
      exact hb2

/-- C2: the matcher succeeds iff the query occurs in the candidate
bounded by word boundaries on both sides (start/end of string or a
non-word character, formalized as the word-character status changing
across the cut) — whole-word containment, not exact equality and not
unbounded substring containment.  The query is compared as literal text
(`re.escape`): a regex metacharacter such as `.` in the query does not
act as pattern syntax, so `"a.c"` does not match `"abc"`.  In
particular `isWholeWordMatch("ali", "alibaba")` is false and
`isWholeWordMatch("ali", "ali baba")` is true. -/
theorem c2_whole_word_semantics :
    (∀ q s : List Nat, isWholeWordMatch q s = true ↔ occursWholeWord q s)
    ∧ isWholeWordMatch (pstr "ali") (pstr "alibaba") = false
    ∧ isWholeWordMatch (pstr "ali") (pstr "ali baba") = true
    ∧ isWholeWordMatch (pstr "a.c") (pstr "abc") = false :=
  ⟨isWholeWordMatch_iff_occurs, by decide, by decide, by decide⟩

/-! ## Search-engine properties -/

theorem searchStep_nodup (t : List Nat) (entry : RawEntry) {acc : List ResultRecord}
    (h : acc.Nodup) : (searchStep t acc entry).Nodup := by
  rw [searchStep]
  split
  · show (if get_official_name entry ≠ [] ∧ rowOf entry ∉ acc
        then acc ++ [rowOf entry] else acc).Nodup
    split
    · next hcond =>
      rw [List.nodup_append]
      refine ⟨h, List.nodup_singleton _, ?_⟩
      intro x hx hx2
      rw [List.mem_singleton.mp hx2] at hx
      exact hcond.2 hx
    · exact h
  · exact h

theorem foldl_searchStep_nodup (t : List Nat) (entries : List RawEntry) :
    ∀ acc : List ResultRecord, acc.Nodup → (entries.foldl (searchStep t) acc).Nodup := by
  induction entries with
  | nil => exact fun acc h => h
  | cons e es ih => exact fun acc h => ih _ (searchStep_nodup t e h)

def johnEntry : RawEntry :=
  { noneEntry with
    firstName := some (pstr "John")
    lastName := some (pstr "Smith") }

def aliEntry : RawEntry :=
  { noneEntry with
    firstName := some (pstr "Ali")
    lastName := some (pstr "Baba")
    akaList := some [{ firstName := some (pstr "ali"), lastName := none }] }

def noNameEntry : RawEntry :=
  { noneEntry with akaList := some [{ firstName := some (pstr "ali"), lastName := none }] }

/-- C5: `search` emits at most one `ResultRecord` per matching entity and
deduplicates the returned sequence by exact equality of the full record
tuple — the result list never contains two equal records; and an entity
whose official name (`"Ali Baba"`) and alias (`"ali"`) both match the
query `"ali"` yields exactly one record. -/
theorem c5_dedup :
    (∀ (entries : List RawEntry) (q : List Nat), (searchEntries entries q).Nodup)
    ∧ searchEntries [aliEntry] (pstr "ali") = [rowOf aliEntry] :=
  ⟨fun entries q => foldl_searchStep_nodup _ entries [] List.nodup_nil, by decide⟩

theorem searchStep_names (t : List Nat) (entry : RawEntry) {acc : List ResultRecord}
    (h : acc.all (fun r => !r.name.isEmpty) = true) :
    (searchStep t acc entry).all (fun r => !r.name.isEmpty) = true := by
  rw [searchStep]
  split
  · show (if get_official_name entry ≠ [] ∧ rowOf entry ∉ acc
        then acc ++ [rowOf entry] else acc).all (fun r => !r.name.isEmpty) = true
    split
    · next hcond =>
      have hname : (rowOf entry).name = get_official_name entry := rfl
      simp only [List.all_append, h, Bool.true_and, List.all_cons, List.all_nil, Bool.and_true,
        Bool.not_eq_true', hname]
      exact List.isEmpty_eq_false.mpr hcond.1
    · exact h
  · exact h

theorem foldl_searchStep_names (t : List Nat) (entries : List RawEntry) :
    ∀ acc : List ResultRecord, acc.all (fun r => !r.name.isEmpty) = true →
      (entries.foldl (searchStep t) acc).all (fun r => !r.name.isEmpty) = true := by
  induction entries with
  | nil => exact fun acc h => h
  | cons e es ih => exact fun acc h => ih _ (searchStep_names t e h)

/-- C8: every record returned by the search has a non-empty official
name — an entry whose official name is empty is dropped even when one of
its aliases matches (the concrete `noNameEntry` has the matching alias
`"ali"` and yields no result), and processing such an entry is a total
function (no exception path exists in the embedding). -/
theorem c8_empty_official_dropped :
    (∀ (entries : List RawEntry) (q : List Nat),
      ((searchEntries entries q).all (fun r => !r.name.isEmpty)) = true)
    ∧ collect_name_variants noNameEntry = [pstr "ali"]
    ∧ searchEntries [noNameEntry] (pstr "ali") = [] :=
  ⟨fun entries q => foldl_searchStep_names _ entries [] rfl, by decide, by decide⟩

/-- C1 (code bug): the query `"!!!"` survives the endpoint's non-empty
check, normalizes to the empty string, and the compiled pattern `\b\b`
then matches every candidate containing a word character — so the search
returns every such entity instead of nothing.  The matcher with an empty
normalized query is `true` on `"john"`, contradicting the claimed rule
that an empty normalized query never matches. -/
theorem c1_empty_query_matches :
    normalize_name (pstr "!!!") = []
    ∧ isWholeWordMatch [] (pstr "john") = true
    ∧ searchEntries [johnEntry] (pstr "!!!") = [rowOf johnEntry] :=
  ⟨by decide, by decide, by decide⟩

/-- C9 counterexample: a reload whose retrieval succeeds with bytes the
parser rejects (here `"<"`, with a parser that rejects everything)
replaces the previously published dataset, and subsequent searches
return `[]` — the old data is discarded even though the parse stage
fails, contradicting the claim for the parse-failure case. -/
theorem c9_counterexample :
    (reload_database (some (pstr "<")) (some (pstr "<sdnList/>"))).1 ≠ some (pstr "<sdnList/>")
    ∧ (reload_database (some (pstr "<")) (some (pstr "<sdnList/>"))).2 = true
    ∧ search_sdn (fun _ => none) (some (pstr "<")) (pstr "ali") = [] :=
  ⟨by decide, rfl, rfl⟩

/-- C9 (amended): if retrieval fails, the stored dataset is unchanged
and the error is reported (HTTP 500, flag `false`); reload performs no
parsing, so successfully fetched bytes replace the dataset
unconditionally. -/
theorem c9_retrieval_failure_keeps_state (old : Option (List Nat)) :
    reload_database none old = (old, false) := rfl

/-- C10: if the stored bytes are absent or the parser rejects them, the
search returns the empty result list rather than raising — parse
failures inside `search_sdn` are absorbed and indistinguishable from a
query with no matches. -/
theorem c10_parse_failures_silent (parseXML : List Nat → Option (List RawEntry)) (q : List Nat) :
    search_sdn parseXML none q = []
    ∧ ∀ bs : List Nat, parseXML bs = none → search_sdn parseXML (some bs) q = [] := by
  refine ⟨rfl, fun bs h => ?_⟩
  simp only [search_sdn, h]

/-- Witness for C10 at a concrete input: a parser that rejects the
stored bytes `"<notxml"` makes the search return `[]`. -/
theorem c10_witness :
    search_sdn (fun _ => none) (some (pstr "<notxml")) (pstr "ali") = [] :=
  (c10_parse_failures_silent (fun _ => none) (pstr "ali")).2 (pstr "<notxml") rfl
